import Mathlib

/-!
Verification of a separate-chaining hash map (`src/src/lib.rs`).

The Rust `HashMap<K, V>` stores `buckets : Vec<Vec<(K, V)>>` and a pair
count `items : usize`.  We embed it shallowly: `Vec` becomes `List`,
`usize` becomes `Nat`, the `DefaultHasher` output `hasher.finish()`
becomes an abstract function `hashF : K → Nat` (deterministic, as
`DefaultHasher::new()` is), and the fallible index computation returns
`Option Nat`.  All operations are translated line by line from the
source.
-/

set_option autoImplicit false

namespace RustHashMap

universe u v

variable {K : Type u} {V : Type v}

/-- Rust `struct HashMap<K, V> { buckets: Vec<Vec<(K, V)>>, items: usize }`. -/
structure HashMap (K : Type u) (V : Type v) where
  buckets : List (List (K × V))
  items : Nat
  deriving Repr

/-- Rust `const INITIAL_NBUCKETS: usize = 1;`. -/
def INITIAL_NBUCKETS : Nat := 1

/-- Rust `HashMap::new()`: empty bucket vector, zero items. -/
def new : HashMap K V := { buckets := [], items := 0 }

section Ops

variable [DecidableEq K] (hashF : K → Nat)

/-- Rust `HashMap::bucket_idx`: `None` on an empty bucket vector, else
`hasher.finish() % buckets.len()` with the hasher output abstracted as
`hashF key`. -/
def bucket_idx (m : HashMap K V) (key : K) : Option Nat :=
  if m.buckets.isEmpty then none
  else some (hashF key % m.buckets.length)

/-- One step of the rehash loop in `HashMap::resize`: push the pair into
`new_buckets[hash(key) % new_buckets.len()]`. -/
def rehashStep (target : Nat) (bs : List (List (K × V))) (p : K × V) :
    List (List (K × V)) :=
  bs.set (hashF p.1 % target) ((bs.getD (hashF p.1 % target) []) ++ [p])

/-- Rust `HashMap::resize`: target capacity `INITIAL_NBUCKETS` from zero
buckets, else double; drain every old bucket in order and push each pair
into the fresh bucket vector at its recomputed index. -/
def resize (m : HashMap K V) : HashMap K V :=
  let target := if m.buckets.length = 0 then INITIAL_NBUCKETS
                else 2 * m.buckets.length
  { buckets := m.buckets.flatten.foldl (rehashStep hashF target)
      (List.replicate target ([] : List (K × V)))
    items := m.items }

/-- The growth-policy guard shared verbatim by `insert` and `entry`:
`self.buckets.is_empty() || self.items > 3 * self.buckets.len() / 4`,
resizing when it holds. -/
def maybeResize (m : HashMap K V) : HashMap K V :=
  if m.buckets.isEmpty ∨ m.items > 3 * m.buckets.length / 4 then
    resize hashF m
  else m

/-- The scan-and-replace loop of `HashMap::insert` over one bucket: on
the first pair with an equal key replace its value in place and return
the old value; otherwise push `(key, value)` at the end. -/
def bucketInsert (key : K) (value : V) :
    List (K × V) → List (K × V) × Option V
  | [] => ([(key, value)], none)
  | p :: rest =>
    if p.1 = key then ((p.1, value) :: rest, some p.2)
    else
      let r := bucketInsert key value rest
      (p :: r.1, r.2)

/-- Rust `HashMap::insert`: run the growth policy, compute the bucket
index (the `?` early return yields `none` with the map left as the
policy produced it), then scan-replace or append, incrementing `items`
only on append. -/
def insert (m : HashMap K V) (key : K) (value : V) :
    HashMap K V × Option V :=
  let m1 := maybeResize hashF m
  match bucket_idx hashF m1 key with
  | none => (m1, none)
  | some i =>
    let bucket := m1.buckets.getD i []
    let r := bucketInsert key value bucket
    ({ buckets := m1.buckets.set i r.1,
       items := if r.2.isSome then m1.items else m1.items + 1 }, r.2)

/-- Rust `HashMap::get`: compute the bucket index (`none` when there are
no buckets), linearly scan that bucket for the first key-equal pair. -/
def get (m : HashMap K V) (key : K) : Option V :=
  match bucket_idx hashF m key with
  | none => none
  | some i => ((m.buckets.getD i []).find? (fun p => p.1 = key)).map Prod.snd

/-- Rust `Vec::swap_remove(pos)`: overwrite position `pos` with the last
element, then pop the last element. -/
def swapRemove (l : List (K × V)) (pos : Nat) : List (K × V) :=
  match l.getLast? with
  | none => l
  | some last => (l.set pos last).dropLast

/-- Rust `HashMap::remove`: bucket index (`?`), position of the matching
key (`?`), then `swap_remove` and decrement `items`. -/
def remove (m : HashMap K V) (key : K) : HashMap K V × Option V :=
  match bucket_idx hashF m key with
  | none => (m, none)
  | some i =>
    let bucket := m.buckets.getD i []
    match bucket.findIdx? (fun p => p.1 = key) with
    | none => (m, none)
    | some pos =>
      ({ buckets := m.buckets.set i (swapRemove bucket pos),
         items := m.items - 1 },
       (bucket[pos]?).map Prod.snd)

/-- Rust `HashMap::contains_key`, defined through `get`. -/
def contains_key (m : HashMap K V) (key : K) : Bool :=
  (get hashF m key).isSome

/-- Rust `HashMap::len`. -/
def len (m : HashMap K V) : Nat := m.items

/-- Rust `HashMap::is_empty`. -/
def is_empty (m : HashMap K V) : Bool := m.items == 0

/-- The two variants of Rust `Entry<'a, K, V>`: `Occupied` holds (in our
reference-free embedding) the bucket index and the position of the found
pair; `Vacant` holds the key and the target bucket index, as the Rust
`VacantEntry` does. -/
inductive EntryState (K : Type u) (V : Type v) where
  | occupied (bucketIdx pos : Nat)
  | vacant (key : K) (bucketIdx : Nat)
  deriving Repr

/-- Rust `HashMap::entry`: run the growth policy, unwrap the bucket
index (modelled as `Option`: `none` is the panic the source rules out),
scan the bucket once with `position` and build the entry state. -/
def entry (m : HashMap K V) (key : K) :
    Option (HashMap K V × EntryState K V) :=
  let m1 := maybeResize hashF m
  match bucket_idx hashF m1 key with
  | none => none
  | some i =>
    match (m1.buckets.getD i []).findIdx? (fun p => p.1 = key) with
    | some pos => some (m1, .occupied i pos)
    | none => some (m1, .vacant key i)

/-- Rust `VacantEntry::insert`: push `(key, value)` onto the target
bucket and increment `items`. -/
def vacantInsert (m : HashMap K V) (key : K) (i : Nat) (value : V) :
    HashMap K V :=
  { buckets := m.buckets.set i ((m.buckets.getD i []) ++ [(key, value)]),
    items := m.items + 1 }

/-- Rust `Entry::or_insert`: occupied returns the stored value (map
untouched), vacant runs `VacantEntry::insert`. -/
def orInsert (m : HashMap K V) (e : EntryState K V) (value : V) :
    HashMap K V × Option V :=
  match e with
  | .occupied i pos => (m, ((m.buckets.getD i [])[pos]?).map Prod.snd)
  | .vacant key i => (vacantInsert m key i value, some value)

/-- Rust `Entry::or_insert_with`, instrumented to count invocations of
`maker`: the producer receives the index of the call and `calls` is
incremented at the single syntactic call site `e.insert(maker())` of the
source; the occupied arm has no call site. -/
def orInsertWithC (m : HashMap K V) (e : EntryState K V)
    (maker : Nat → V) (calls : Nat) : HashMap K V × Option V × Nat :=
  match e with
  | .occupied i pos =>
    (m, ((m.buckets.getD i [])[pos]?).map Prod.snd, calls)
  | .vacant key i =>
    let v := maker calls
    (vacantInsert m key i v, some v, calls + 1)

/-- Rust `Entry::or_insert_with` with the producer as a plain thunk. -/
def orInsertWith (m : HashMap K V) (e : EntryState K V)
    (maker : Unit → V) : HashMap K V × Option V :=
  match e with
  | .occupied i pos => (m, ((m.buckets.getD i [])[pos]?).map Prod.snd)
  | .vacant key i =>
    let v := maker ()
    (vacantInsert m key i v, some v)

/-- Rust `Entry::or_default`, via `or_insert_with(V::default)`. -/
def orDefault [Inhabited V] (m : HashMap K V) (e : EntryState K V) :
    HashMap K V × Option V :=
  orInsertWith m e (fun _ => default)

/-- Rust `FromIterator for HashMap`: start from `new` and `insert` every
pair in input order. -/
def fromList (l : List (K × V)) : HashMap K V :=
  l.foldl (fun m p => (insert hashF m p.1 p.2).1) new

end Ops

section Iterators

/-- Rust `Iter::next`: from state `(bucket_idx, at)` loop over buckets;
a present slot is yielded with `at` advanced, an exhausted bucket resets
`at` and moves to the next bucket, running off the buckets ends the
iteration. -/
def iterNext (bs : List (List (K × V))) (i a : Nat) :
    Option ((K × V) × Nat × Nat) :=
  match hb : bs[i]? with
  | some bucket =>
    match bucket[a]? with
    | some p => some (p, i, a + 1)
    | none => iterNext bs (i + 1) 0
  | none => none
termination_by bs.length - i
decreasing_by
  obtain ⟨hi, -⟩ := List.getElem?_eq_some.1 hb
  omega

/-- The full stream of the borrowing iterator: every pair `Iter::next`
yields from state `(i, a)` until it returns `None`, in order. -/
def iterRun (bs : List (List (K × V))) (i a : Nat) : List (K × V) :=
  match hb : bs[i]? with
  | some bucket =>
    match hp : bucket[a]? with
    | some p => p :: iterRun bs i (a + 1)
    | none => iterRun bs (i + 1) 0
  | none => []
termination_by (bs.length - i, (bs.getD i []).length - a)
decreasing_by
  · obtain ⟨hi, -⟩ := List.getElem?_eq_some.1 hb
    obtain ⟨ha, -⟩ := List.getElem?_eq_some.1 hp
    apply Prod.Lex.right
    simp only [List.getD_eq_getElem?_getD, hb, Option.getD_some]
    omega
  · obtain ⟨hi, -⟩ := List.getElem?_eq_some.1 hb
    apply Prod.Lex.left
    omega

/-- Rust `IntoIter::next`: pop the last pair of the current bucket,
advancing to the next bucket when the current one is empty; the state is
the (progressively drained) map's buckets plus the bucket index. -/
def intoNext (bs : List (List (K × V))) (i : Nat) :
    Option ((K × V) × List (List (K × V)) × Nat) :=
  match hb : bs[i]? with
  | some bucket =>
    match bucket.getLast? with
    | some p => some (p, bs.set i bucket.dropLast, i)
    | none => intoNext bs (i + 1)
  | none => none
termination_by bs.length - i
decreasing_by
  obtain ⟨hi, -⟩ := List.getElem?_eq_some.1 hb
  omega

/-- The full stream of the consuming iterator from state `(bs, i)`:
every pair `IntoIter::next` yields until it returns `None`, in order. -/
def intoRun (bs : List (List (K × V))) (i : Nat) : List (K × V) :=
  match hb : bs[i]? with
  | some bucket =>
    match hp : bucket.getLast? with
    | some p => p :: intoRun (bs.set i bucket.dropLast) i
    | none => intoRun bs (i + 1)
  | none => []
termination_by (bs.length - i, (bs.getD i []).length)
decreasing_by
  · obtain ⟨hi, -⟩ := List.getElem?_eq_some.1 hb
    have hne : bucket ≠ [] := by
      intro h
      rw [h] at hp
      simp at hp
    simp only [List.length_set]
    apply Prod.Lex.right
    simp only [List.getD_eq_getElem?_getD, List.getElem?_set_self hi, hb,
      Option.getD_some, List.length_dropLast]
    have : 0 < bucket.length := List.length_pos.2 hne
    omega
  · obtain ⟨hi, -⟩ := List.getElem?_eq_some.1 hb
    apply Prod.Lex.left
    omega

end Iterators

section Invariant

variable [DecidableEq K]

/-- The structural invariants of the table (spec §3): every pair sits in
the bucket selected by `hash(key) mod buckets.length`, `items` equals
the total number of stored pairs, and no bucket holds two pairs with
equal keys. -/
def WF (hashF : K → Nat) (m : HashMap K V) : Prop :=
  (∀ i ∈ List.range m.buckets.length, ∀ p ∈ m.buckets.getD i [],
      hashF p.1 % m.buckets.length = i) ∧
  m.items = (m.buckets.map List.length).sum ∧
  (∀ b ∈ m.buckets, (b.map Prod.fst).Nodup)

instance (hashF : K → Nat) (m : HashMap K V) : Decidable (WF hashF m) := by
  unfold WF
  exact inferInstance

end Invariant

section Samples

/-- A concrete hash function for evaluating the development: the
identity on `Nat`, standing in for one fixed deterministic hasher. -/
def natHash : Nat → Nat := fun n => n

/-- A small concrete table used to evaluate the theorems. -/
def sampleMap : HashMap Nat Nat :=
  fromList natHash [(1, 10), (2, 20), (3, 30)]

end Samples

section RehashLemmas

variable (hashF : K → Nat)

theorem sum_map_length_set_append :
    ∀ (bs : List (List (K × V))) (j : Nat) (p : K × V), j < bs.length →
      ((bs.set j (bs.getD j [] ++ [p])).map List.length).sum
        = (bs.map List.length).sum + 1
  | [], j, _, hj => by simp at hj
  | b :: bs, 0, p, _ => by simp; omega
  | b :: bs, j + 1, p, hj => by
    have ih := sum_map_length_set_append bs j p (by simpa using hj)
    simp only [List.getD_eq_getElem?_getD, List.getElem?_cons_succ,
      List.set_cons_succ, List.map_cons, List.sum_cons] at ih ⊢
    omega

theorem length_foldl_rehashStep (t : Nat) (l : List (K × V)) :
    ∀ bs : List (List (K × V)),
      (l.foldl (rehashStep hashF t) bs).length = bs.length := by
  induction l with
  | nil => intro bs; rfl
  | cons p l ih =>
    intro bs
    rw [List.foldl_cons, ih]
    simp [rehashStep]

theorem getD_foldl_rehashStep (t : Nat) (l : List (K × V)) :
    ∀ bs : List (List (K × V)), bs.length = t → ∀ i, i < t →
      (l.foldl (rehashStep hashF t) bs).getD i []
        = bs.getD i [] ++ l.filter (fun p => hashF p.1 % t = i) := by
  induction l with
  | nil => intro bs _ i _; simp
  | cons p l ih =>
    intro bs hlen i hi
    rw [List.foldl_cons]
    have hlen2 : (rehashStep hashF t bs p).length = t := by
      simp [rehashStep, hlen]
    rw [ih _ hlen2 i hi]
    by_cases hcase : hashF p.1 % t = i
    · have hid : (rehashStep hashF t bs p).getD i []
          = bs.getD i [] ++ [p] := by
        simp only [rehashStep, hcase, List.getD_eq_getElem?_getD]
        rw [List.getElem?_set_self (by omega)]
        simp [hcase]
      rw [hid]
      simp [List.filter_cons, hcase, List.append_assoc]
    · have hid : (rehashStep hashF t bs p).getD i []
          = bs.getD i [] := by
        simp only [rehashStep, List.getD_eq_getElem?_getD]
        rw [List.getElem?_set_ne hcase]
      rw [hid]
      simp [List.filter_cons, hcase]

theorem sum_foldl_rehashStep (t : Nat) (ht : 0 < t) (l : List (K × V)) :
    ∀ bs : List (List (K × V)), bs.length = t →
      ((l.foldl (rehashStep hashF t) bs).map List.length).sum
        = (bs.map List.length).sum + l.length := by
  induction l with
  | nil => intro bs _; rfl
  | cons p l ih =>
    intro bs hlen
    rw [List.foldl_cons]
    have hlen2 : (rehashStep hashF t bs p).length = t := by
      simp [rehashStep, hlen]
    rw [ih _ hlen2]
    have hj : hashF p.1 % t < bs.length := by
      rw [hlen]; exact Nat.mod_lt _ ht
    have hstep := sum_map_length_set_append bs (hashF p.1 % t) p hj
    have hdef : rehashStep hashF t bs p
        = bs.set (hashF p.1 % t) (bs.getD (hashF p.1 % t) [] ++ [p]) := rfl
    rw [hdef, hstep]
    simp [Nat.add_assoc, Nat.add_comm 1]

theorem resize_buckets_length (m : HashMap K V) :
    (resize hashF m).buckets.length
      = if m.buckets.length = 0 then 1 else 2 * m.buckets.length := by
  unfold resize
  rw [length_foldl_rehashStep]
  simp [INITIAL_NBUCKETS]

theorem resize_buckets_pos (m : HashMap K V) :
    0 < (resize hashF m).buckets.length := by
  rw [resize_buckets_length]
  split <;> omega

theorem resize_items (m : HashMap K V) :
    (resize hashF m).items = m.items := rfl

theorem resize_getD (m : HashMap K V) (i : Nat)
    (hi : i < (resize hashF m).buckets.length) :
    (resize hashF m).buckets.getD i []
      = m.buckets.flatten.filter
          (fun p => hashF p.1 % (resize hashF m).buckets.length = i) := by
  have hlen : (resize hashF m).buckets.length
      = if m.buckets.length = 0 then INITIAL_NBUCKETS
        else 2 * m.buckets.length := by
    unfold resize
    rw [length_foldl_rehashStep]
    simp
  conv_lhs => unfold resize
  rw [getD_foldl_rehashStep _ _ _ _ (by simp) i (by rw [hlen] at hi; exact hi)]
  rw [hlen]
  simp

theorem resize_sum (m : HashMap K V) :
    ((resize hashF m).buckets.map List.length).sum
      = m.buckets.flatten.length := by
  unfold resize
  rw [sum_foldl_rehashStep]
  · simp
  · simp [INITIAL_NBUCKETS]
    split <;> omega
  · simp

end RehashLemmas

section WFLemmas

variable (hashF : K → Nat)

theorem WF_new : WF hashF (new : HashMap K V) := by
  refine ⟨?_, ?_, ?_⟩
  · intro i hi
    simp [new] at hi
  · simp [new]
  · intro b hb
    simp [new] at hb

theorem WF.placement {m : HashMap K V} (h : WF hashF m) {i : Nat}
    (hi : i < m.buckets.length) {p : K × V}
    (hp : p ∈ m.buckets.getD i []) :
    hashF p.1 % m.buckets.length = i :=
  h.1 i (List.mem_range.2 hi) p hp

theorem WF.nodupKeys {m : HashMap K V} (h : WF hashF m) {b : List (K × V)}
    (hb : b ∈ m.buckets) : (b.map Prod.fst).Nodup :=
  h.2.2 b hb

theorem WF.count {m : HashMap K V} (h : WF hashF m) :
    m.items = (m.buckets.map List.length).sum :=
  h.2.1

theorem getD_eq_of_mem {bs : List (List (K × V))} {b : List (K × V)}
    (hb : b ∈ bs) : ∃ i, i < bs.length ∧ bs.getD i [] = b := by
  obtain ⟨i, hi, rfl⟩ := List.getElem_of_mem hb
  exact ⟨i, hi, by simp [List.getD_eq_getElem?_getD, List.getElem?_eq_getElem hi]⟩

theorem getD_mem {bs : List (List (K × V))} {i : Nat}
    (hi : i < bs.length) : bs.getD i [] ∈ bs := by
  rw [List.getD_eq_getElem?_getD, List.getElem?_eq_getElem hi]
  exact List.getElem_mem hi

theorem WF.flatten_keys_nodup {m : HashMap K V} (h : WF hashF m) :
    (m.buckets.flatten.map Prod.fst).Nodup := by
  rw [List.map_flatten, List.nodup_flatten]
  constructor
  · intro l hl
    rw [List.mem_map] at hl
    obtain ⟨b, hb, rfl⟩ := hl
    exact h.2.2 b hb
  · rw [List.pairwise_iff_getElem]
    intro i j hi hj hij
    simp only [List.length_map] at hi hj
    intro x hxi hxj
    simp only [List.getElem_map] at hxi hxj
    obtain ⟨p, hp, hpx⟩ := List.mem_map.1 hxi
    obtain ⟨q, hq, hqx⟩ := List.mem_map.1 hxj
    have hgi : m.buckets.getD i [] = m.buckets[i] := by
      simp [List.getD_eq_getElem?_getD, List.getElem?_eq_getElem hi]
    have hgj : m.buckets.getD j [] = m.buckets[j] := by
      simp [List.getD_eq_getElem?_getD, List.getElem?_eq_getElem hj]
    have h1 := h.placement hashF hi (hgi ▸ hp)
    have h2 := h.placement hashF hj (hgj ▸ hq)
    rw [hpx] at h1
    rw [hqx] at h2
    omega

end WFLemmas

section FindLemmas

variable [DecidableEq K] (hashF : K → Nat)

theorem find?_keyFilter {t i : Nat} (key : K) (l : List (K × V))
    (hkey : hashF key % t = i) :
    (l.filter (fun p => hashF p.1 % t = i)).find? (fun p => p.1 = key)
      = l.find? (fun p => p.1 = key) := by
  rw [List.find?_filter]
  congr 1
  funext p
  by_cases hp : p.1 = key
  · simp [hp, hkey]
  · simp [hp]

omit [DecidableEq K] in
theorem find?_flatten_single (pred : K × V → Bool) :
    ∀ (bs : List (List (K × V))) (i : Nat), i < bs.length →
      (∀ j, j < bs.length → ∀ x ∈ bs.getD j [], pred x = true → j = i) →
      bs.flatten.find? pred = (bs.getD i []).find? pred
  | [], i, hi, _ => by simp at hi
  | b :: bs, i, hi, hplace => by
    cases i with
    | zero =>
      simp only [List.flatten_cons, List.find?_append]
      have hrest : bs.flatten.find? pred = none := by
        rw [List.find?_eq_none]
        intro x hx hpx
        obtain ⟨l, hl, hxl⟩ := List.mem_flatten.1 hx
        obtain ⟨j, hj, rfl⟩ := List.getElem_of_mem hl
        have hmem : x ∈ (b :: bs).getD (j + 1) [] := by
          simpa [List.getD_eq_getElem?_getD, List.getElem?_eq_getElem hj]
            using hxl
        have := hplace (j + 1) (by simpa using Nat.succ_lt_succ hj) x hmem hpx
        omega
      rw [hrest, Option.or_none]
      simp
    | succ i =>
      simp only [List.flatten_cons, List.find?_append]
      have hhead : b.find? pred = none := by
        rw [List.find?_eq_none]
        intro x hx hpx
        have hmem : x ∈ (b :: bs).getD 0 [] := by simpa using hx
        have := hplace 0 (by omega) x hmem hpx
        omega
      rw [hhead, Option.none_or]
      have hrec := find?_flatten_single pred bs i (by simpa using hi)
        (fun j hj x hx hpx => by
          have hmem : x ∈ (b :: bs).getD (j + 1) [] := by simpa using hx
          have := hplace (j + 1) (by simpa using Nat.succ_lt_succ hj) x hmem hpx
          omega)
      rw [hrec]
      simp

end FindLemmas

section BucketInsertLemmas

variable [DecidableEq K]

theorem bucketInsert_snd (key : K) (value : V) :
    ∀ b : List (K × V),
      (bucketInsert key value b).2
        = (b.find? (fun p => p.1 = key)).map Prod.snd
  | [] => by simp [bucketInsert]
  | p :: b => by
    by_cases hp : p.1 = key
    · simp [bucketInsert, hp, List.find?_cons]
    · simp [bucketInsert, hp, List.find?_cons, bucketInsert_snd key value b]

theorem bucketInsert_find_self (key : K) (value : V) :
    ∀ b : List (K × V),
      (bucketInsert key value b).1.find? (fun p => p.1 = key)
        = some (key, value)
  | [] => by simp [bucketInsert]
  | p :: b => by
    by_cases hp : p.1 = key
    · simp [bucketInsert, hp, List.find?_cons]
    · simp [bucketInsert, hp, List.find?_cons,
        bucketInsert_find_self key value b]

theorem bucketInsert_find_ne (key k2 : K) (value : V) (hne : k2 ≠ key) :
    ∀ b : List (K × V),
      (bucketInsert key value b).1.find? (fun p => p.1 = k2)
        = b.find? (fun p => p.1 = k2)
  | [] => by
    have h1 : ¬(key = k2) := Ne.symm hne
    simp [bucketInsert, List.find?_cons, h1]
  | p :: b => by
    have h1 : ¬(key = k2) := Ne.symm hne
    by_cases hp : p.1 = key
    · have hp2 : ¬(p.1 = k2) := by rw [hp]; exact h1
      simp [bucketInsert, hp, List.find?_cons, hp2, h1]
    · by_cases hq : p.1 = k2
      · simp [bucketInsert, hp, List.find?_cons, hq, hne, h1]
      · simp [bucketInsert, hp, List.find?_cons, hq, h1,
          bucketInsert_find_ne key k2 value hne b]

theorem bucketInsert_length (key : K) (value : V) :
    ∀ b : List (K × V),
      (bucketInsert key value b).1.length
        = if (b.find? (fun p => p.1 = key)).isSome then b.length
          else b.length + 1
  | [] => by simp [bucketInsert]
  | p :: b => by
    by_cases hp : p.1 = key
    · simp [bucketInsert, hp, List.find?_cons]
    · simp only [bucketInsert, hp, if_false, List.find?_cons]
      have := bucketInsert_length key value b
      by_cases hf : (b.find? (fun p => p.1 = key)).isSome
      · simp_all
      · simp_all

theorem bucketInsert_mem (key : K) (value : V) :
    ∀ b : List (K × V), ∀ q ∈ (bucketInsert key value b).1,
      q.1 = key ∨ q ∈ b
  | [], q, hq => by
    simp [bucketInsert] at hq
    left
    simp [hq]
  | p :: b, q, hq => by
    by_cases hp : p.1 = key
    · simp only [bucketInsert, hp, if_true, List.mem_cons] at hq
      rcases hq with hq | hq
      · left; simp [hq, hp]
      · right; exact List.mem_cons_of_mem p hq
    · simp only [bucketInsert, hp, if_false, List.mem_cons] at hq
      rcases hq with hq | hq
      · right; rw [hq]; exact List.mem_cons_self p b
      · rcases bucketInsert_mem key value b q hq with h | h
        · left; exact h
        · right; exact List.mem_cons_of_mem p h

theorem bucketInsert_keys_absent (key : K) (value : V) :
    ∀ b : List (K × V), b.find? (fun p => p.1 = key) = none →
      (bucketInsert key value b).1.map Prod.fst = b.map Prod.fst ++ [key]
  | [], _ => by simp [bucketInsert]
  | p :: b, habs => by
    rw [List.find?_cons] at habs
    by_cases hp : p.1 = key
    · simp [hp] at habs
    · simp only [hp, decide_eq_true_eq, if_false] at habs
      simp only [bucketInsert, hp, if_false, List.map_cons]
      rw [bucketInsert_keys_absent key value b (by simpa using habs)]
      simp

theorem bucketInsert_keys_present (key : K) (value : V) :
    ∀ b : List (K × V), (b.find? (fun p => p.1 = key)).isSome →
      (bucketInsert key value b).1.map Prod.fst = b.map Prod.fst
  | [], h => by simp at h
  | p :: b, hpres => by
    by_cases hp : p.1 = key
    · simp [bucketInsert, hp]
    · rw [List.find?_cons] at hpres
      simp only [hp, decide_eq_true_eq, if_false] at hpres
      simp only [bucketInsert, hp, if_false, List.map_cons]
      rw [bucketInsert_keys_present key value b (by simpa using hpres)]

end BucketInsertLemmas

section ResizeLemmas

variable [DecidableEq K] (hashF : K → Nat)

omit [DecidableEq K] in
theorem isEmpty_false_of_pos {α : Type u} {l : List α} (h : 0 < l.length) :
    l.isEmpty = false := by
  cases l with
  | nil => simp at h
  | cons a l => simp

theorem get_eq (m : HashMap K V) (key : K) (hpos : 0 < m.buckets.length) :
    get hashF m key
      = ((m.buckets.getD (hashF key % m.buckets.length) []).find?
          (fun p => p.1 = key)).map Prod.snd := by
  have hne := isEmpty_false_of_pos hpos
  simp [get, bucket_idx, hne]

theorem get_empty (m : HashMap K V) (key : K)
    (h : m.buckets.length = 0) : get hashF m key = none := by
  have hb : m.buckets = [] := List.length_eq_zero.1 h
  simp [get, bucket_idx, hb]

omit [DecidableEq K] in
theorem resize_WF {m : HashMap K V} (h : WF hashF m) :
    WF hashF (resize hashF m) := by
  refine ⟨?_, ?_, ?_⟩
  · intro i hi p hp
    rw [List.mem_range] at hi
    rw [resize_getD hashF m i hi] at hp
    rw [List.mem_filter] at hp
    exact of_decide_eq_true hp.2
  · rw [resize_items, resize_sum, h.count, List.length_flatten]
  · intro b hb
    obtain ⟨i, hi, hgd⟩ := getD_eq_of_mem hb
    rw [resize_getD hashF m i hi] at hgd
    have hsub : b.Sublist m.buckets.flatten := hgd ▸ List.filter_sublist _
    exact ((hsub.map Prod.fst).nodup (h.flatten_keys_nodup hashF))

theorem get_resize {m : HashMap K V} (h : WF hashF m) (key : K) :
    get hashF (resize hashF m) key = get hashF m key := by
  have hpos := resize_buckets_pos hashF m
  rw [get_eq hashF _ key hpos]
  rw [resize_getD hashF m _ (Nat.mod_lt _ hpos)]
  rw [find?_keyFilter hashF key m.buckets.flatten rfl]
  by_cases hlen : 0 < m.buckets.length
  · have hflat : m.buckets.flatten.find? (fun p => p.1 = key)
        = (m.buckets.getD (hashF key % m.buckets.length) []).find?
            (fun p => p.1 = key) := by
      apply find?_flatten_single _ m.buckets _ (Nat.mod_lt _ hlen)
      intro j hj x hx hpx
      have hk : x.1 = key := of_decide_eq_true hpx
      have := h.placement hashF hj hx
      rw [hk] at this
      omega
    rw [hflat, get_eq hashF m key hlen]
  · have hb : m.buckets = [] := List.length_eq_zero.1 (by omega)
    rw [get_empty hashF m key (by omega), hb]
    simp

theorem maybeResize_items (m : HashMap K V) :
    (maybeResize hashF m).items = m.items := by
  unfold maybeResize
  split
  · exact resize_items hashF m
  · rfl

theorem maybeResize_pos (m : HashMap K V) :
    0 < (maybeResize hashF m).buckets.length := by
  unfold maybeResize
  split
  · exact resize_buckets_pos hashF m
  · rename_i hcond
    rw [not_or] at hcond
    have := hcond.1
    cases hm : m.buckets with
    | nil => rw [hm] at this; simp at this
    | cons a l => simp [hm]

theorem maybeResize_WF {m : HashMap K V} (h : WF hashF m) :
    WF hashF (maybeResize hashF m) := by
  unfold maybeResize
  split
  · exact resize_WF hashF h
  · exact h

theorem get_maybeResize {m : HashMap K V} (h : WF hashF m) (key : K) :
    get hashF (maybeResize hashF m) key = get hashF m key := by
  unfold maybeResize
  split
  · exact get_resize hashF h key
  · rfl

theorem maybeResize_length (m : HashMap K V) :
    (maybeResize hashF m).buckets.length
      = if m.buckets.isEmpty ∨ m.items > 3 * m.buckets.length / 4 then
          (if m.buckets.length = 0 then 1 else 2 * m.buckets.length)
        else m.buckets.length := by
  unfold maybeResize
  split
  · exact resize_buckets_length hashF m
  · rfl

end ResizeLemmas

section InsertLemmas

variable [DecidableEq K] (hashF : K → Nat)

omit [DecidableEq K] in
theorem sum_map_length_set :
    ∀ (bs : List (List (K × V))) (i : Nat) (x : List (K × V)),
      i < bs.length →
      ((bs.set i x).map List.length).sum + (bs.getD i []).length
        = (bs.map List.length).sum + x.length
  | [], i, _, hi => by simp at hi
  | b :: bs, 0, x, _ => by simp; omega
  | b :: bs, i + 1, x, hi => by
    have ih := sum_map_length_set bs i x (by simpa using hi)
    simp only [List.getD_eq_getElem?_getD, List.getElem?_cons_succ,
      List.set_cons_succ, List.map_cons, List.sum_cons] at ih ⊢
    omega

theorem insert_eq (m : HashMap K V) (key : K) (value : V) :
    insert hashF m key value
      = (let m1 := maybeResize hashF m
         let i := hashF key % m1.buckets.length
         let r := bucketInsert key value (m1.buckets.getD i [])
         ({ buckets := m1.buckets.set i r.1,
            items := if r.2.isSome then m1.items else m1.items + 1 },
          r.2)) := by
  have hpos := maybeResize_pos hashF m
  have hne := isEmpty_false_of_pos hpos
  simp [insert, bucket_idx, hne]

theorem insert_buckets_length (m : HashMap K V) (key : K) (value : V) :
    (insert hashF m key value).1.buckets.length
      = (maybeResize hashF m).buckets.length := by
  rw [insert_eq]
  simp

theorem insert_snd {m : HashMap K V} (h : WF hashF m) (key : K)
    (value : V) :
    (insert hashF m key value).2 = get hashF m key := by
  rw [insert_eq]
  simp only
  rw [bucketInsert_snd]
  rw [← get_eq hashF _ key (maybeResize_pos hashF m)]
  exact get_maybeResize hashF h key

theorem get_insert_self (m : HashMap K V) (key : K) (value : V) :
    get hashF (insert hashF m key value).1 key = some value := by
  have hpos := maybeResize_pos hashF m
  rw [insert_eq]
  simp only
  rw [get_eq hashF _ key (by simpa using hpos)]
  simp only [List.length_set]
  rw [List.getD_eq_getElem?_getD,
    List.getElem?_set_self (by simpa using Nat.mod_lt (hashF key) hpos)]
  simp only [Option.getD_some]
  rw [bucketInsert_find_self]
  rfl

theorem get_insert_ne {m : HashMap K V} (h : WF hashF m) {key k2 : K}
    (value : V) (hne : k2 ≠ key) :
    get hashF (insert hashF m key value).1 k2 = get hashF m k2 := by
  have hpos := maybeResize_pos hashF m
  rw [insert_eq]
  simp only
  rw [get_eq hashF _ k2 (by simpa using hpos)]
  simp only [List.length_set]
  rw [← get_maybeResize hashF h k2,
    get_eq hashF _ k2 hpos]
  by_cases hidx : hashF k2 % (maybeResize hashF m).buckets.length
      = hashF key % (maybeResize hashF m).buckets.length
  · rw [hidx]
    rw [List.getD_eq_getElem?_getD,
      List.getElem?_set_self (Nat.mod_lt (hashF key) hpos)]
    simp only [Option.getD_some]
    rw [bucketInsert_find_ne key k2 value hne]
  · rw [List.getD_eq_getElem?_getD, List.getElem?_set_ne (Ne.symm hidx)]
    simp [List.getD_eq_getElem?_getD]

theorem insert_items {m : HashMap K V} (h : WF hashF m) (key : K)
    (value : V) :
    (insert hashF m key value).1.items
      = if (get hashF m key).isSome then m.items else m.items + 1 := by
  have hsnd := insert_snd hashF h key value
  rw [insert_eq] at hsnd ⊢
  simp only at hsnd ⊢
  rw [hsnd, maybeResize_items]

theorem insert_WF {m : HashMap K V} (h : WF hashF m) (key : K)
    (value : V) :
    WF hashF (insert hashF m key value).1 := by
  have h1 := maybeResize_WF hashF h
  rw [insert_eq]
  simp only
  set m1 := maybeResize hashF m with hm1
  have hpos : 0 < m1.buckets.length := maybeResize_pos hashF m
  have hi : hashF key % m1.buckets.length < m1.buckets.length :=
    Nat.mod_lt _ hpos
  set i := hashF key % m1.buckets.length with hidef
  set b := m1.buckets.getD i [] with hbdef
  set r := bucketInsert key value b with hrdef
  refine ⟨?_, ?_, ?_⟩
  · intro j hj p hp
    simp only [List.length_set] at hj ⊢
    rw [List.mem_range] at hj
    by_cases hji : j = i
    · subst hji
      rw [List.getD_eq_getElem?_getD, List.getElem?_set_self hi] at hp
      simp only [Option.getD_some] at hp
      rcases bucketInsert_mem key value b p hp with hk | hmem
      · rw [hk]
      · exact h1.placement hashF hj (hbdef ▸ hmem)
    · rw [List.getD_eq_getElem?_getD, List.getElem?_set_ne
        (fun hcontra => hji hcontra.symm)] at hp
      rw [← List.getD_eq_getElem?_getD] at hp
      exact h1.placement hashF hj hp
  · simp only [List.length_set]
    have hsum := sum_map_length_set m1.buckets i r.1 hi
    rw [← hbdef] at hsum
    have hlen := bucketInsert_length key value b
    rw [← hrdef] at hlen
    have hcount := h1.count
    have hsnd := bucketInsert_snd key value b
    rw [← hrdef] at hsnd
    have hr2 : r.2.isSome = (b.find? (fun p => p.1 = key)).isSome := by
      rw [hsnd]
      cases b.find? (fun p => p.1 = key) <;> simp
    by_cases hf : (b.find? (fun p => p.1 = key)).isSome
    · rw [if_pos hf] at hlen
      rw [if_pos (by rw [hr2]; exact hf)]
      omega
    · rw [if_neg hf] at hlen
      rw [if_neg (by rw [hr2]; exact hf)]
      omega
  · intro bk hbk
    rcases List.mem_or_eq_of_mem_set hbk with hmem | heq
    · exact h1.nodupKeys hashF hmem
    · subst heq
      by_cases hf : (b.find? (fun p => p.1 = key)).isSome
      · rw [bucketInsert_keys_present key value b hf]
        exact h1.nodupKeys hashF (getD_mem hi)
      · have habs : b.find? (fun p => p.1 = key) = none :=
          Option.not_isSome_iff_eq_none.1 hf
        rw [bucketInsert_keys_absent key value b habs]
        rw [List.nodup_append]
        refine ⟨h1.nodupKeys hashF (getD_mem hi), List.nodup_singleton key, ?_⟩
        intro x hx hxk
        rw [List.mem_singleton] at hxk
        subst hxk
        obtain ⟨p, hp, hpk⟩ := List.mem_map.1 hx
        rw [List.find?_eq_none] at habs
        exact habs p hp (by simp [hpk])

end InsertLemmas

section RemoveLemmas

variable [DecidableEq K] (hashF : K → Nat)

omit [DecidableEq K] in
theorem swapRemove_perm :
    ∀ (b : List (K × V)) (pos : Nat), pos < b.length →
      (swapRemove b pos).Perm (b.eraseIdx pos)
  | [], pos, hp => by simp at hp
  | [p], 0, _ => by simp [swapRemove]
  | [p], pos + 1, hp => by simp at hp
  | p :: q :: rest, 0, _ => by
    have hne : (q :: rest) ≠ [] := by simp
    obtain ⟨last, hlast⟩ := Option.isSome_iff_exists.1
      (List.getLast?_isSome.2 (show (p :: q :: rest) ≠ [] by simp))
    have hlast2 : (q :: rest).getLast? = some last := by
      rw [List.getLast?_cons_cons] at hlast
      exact hlast
    simp only [swapRemove, hlast, List.set_cons_zero, List.eraseIdx_cons_zero]
    rw [List.dropLast_cons_of_ne_nil hne]
    have hdecomp : (q :: rest).dropLast ++ [last] = q :: rest :=
      List.dropLast_append_getLast? last hlast2
    conv_rhs => rw [← hdecomp]
    exact (List.perm_append_singleton _ _).symm
  | p :: q :: rest, pos + 1, hp => by
    obtain ⟨last, hlast⟩ := Option.isSome_iff_exists.1
      (List.getLast?_isSome.2 (show (q :: rest) ≠ [] by simp))
    have hlast1 : (p :: q :: rest).getLast? = some last := by
      rw [List.getLast?_cons_cons]
      exact hlast
    have hsetne : (q :: rest).set pos last ≠ [] := by
      intro hcontra
      have := congrArg List.length hcontra
      simp at this
    simp only [swapRemove, hlast1, hlast, List.set_cons_succ,
      List.eraseIdx_cons_succ]
    rw [List.dropLast_cons_of_ne_nil hsetne]
    have hrec := swapRemove_perm (q :: rest) pos (by simpa using hp)
    simp only [swapRemove, hlast] at hrec
    exact List.Perm.cons p hrec

omit [DecidableEq K] in
theorem swapRemove_length {b : List (K × V)} {pos : Nat}
    (hp : pos < b.length) :
    (swapRemove b pos).length + 1 = b.length := by
  rw [(swapRemove_perm b pos hp).length_eq, List.length_eraseIdx]
  rw [if_pos hp]
  omega

theorem eraseIdx_no_key {b : List (K × V)} {pos : Nat} {key : K}
    (hnd : (b.map Prod.fst).Nodup) {q0 : K × V} (hq0 : b[pos]? = some q0)
    (hk : q0.1 = key) : ∀ q ∈ b.eraseIdx pos, q.1 ≠ key := by
  obtain ⟨hpos, hget⟩ := List.getElem?_eq_some.1 hq0
  have hdecomp : b = b.take pos ++ b[pos] :: b.drop (pos + 1) := by
    conv_lhs => rw [← List.take_append_drop pos b]
    rw [List.getElem_cons_drop b pos hpos]
  rw [List.eraseIdx_eq_take_drop_succ]
  intro q hq hqk
  have hqmem : q ∈ b.take pos ∨ q ∈ b.drop (pos + 1) :=
    List.mem_append.1 hq
  have hnd2 : ((b.take pos ++ b[pos] :: b.drop (pos + 1)).map Prod.fst).Nodup := by
    rw [← hdecomp]
    exact hnd
  rw [List.map_append, List.map_cons] at hnd2
  have hkey : b[pos].1 = key := by rw [hget, hk]
  rcases hqmem with hmem | hmem
  · have h1 : key ∈ (b.take pos).map Prod.fst :=
      List.mem_map.2 ⟨q, hmem, hqk⟩
    have := (List.nodup_append.1 hnd2).2.2
    exact this h1 (by rw [← hkey]; exact List.mem_cons_self _ _)
  · have h1 : key ∈ (b.drop (pos + 1)).map Prod.fst :=
      List.mem_map.2 ⟨q, hmem, hqk⟩
    have := (List.nodup_append.1 hnd2).2.1
    rw [List.nodup_cons] at this
    rw [← hkey] at h1
    exact this.1 h1

theorem findIdx?_some_spec (pred : K × V → Bool) :
    ∀ (l : List (K × V)) (pos : Nat), l.findIdx? pred = some pos →
      ∃ x, l[pos]? = some x ∧ pred x = true ∧ l.find? pred = some x
  | [], pos, hidx => by simp at hidx
  | a :: l, pos, hidx => by
    rw [List.findIdx?_cons] at hidx
    by_cases ha : pred a
    · rw [if_pos ha] at hidx
      rw [Option.some_inj] at hidx
      subst hidx
      exact ⟨a, by simp, ha, by rw [List.find?_cons, ha]⟩
    · rw [if_neg ha, List.findIdx?_start_succ] at hidx
      rw [Option.map_eq_some'] at hidx
      obtain ⟨pos2, hpos2, rfl⟩ := hidx
      obtain ⟨x, hx1, hx2, hx3⟩ := findIdx?_some_spec pred l pos2 hpos2
      refine ⟨x, ?_, hx2, ?_⟩
      · simpa using hx1
      · rw [List.find?_cons]
        have hab : pred a = false := by
          cases hpa : pred a
          · rfl
          · exact absurd hpa ha
        rw [hab]
        exact hx3

theorem remove_absent {m : HashMap K V} (key : K)
    (habs : get hashF m key = none) :
    remove hashF m key = (m, none) := by
  by_cases hpos : 0 < m.buckets.length
  · have hne := isEmpty_false_of_pos hpos
    rw [get_eq hashF m key hpos] at habs
    have hfind : (m.buckets.getD (hashF key % m.buckets.length) []).find?
        (fun p => p.1 = key) = none := by
      cases hcase : (m.buckets.getD (hashF key % m.buckets.length) []).find?
          (fun p => p.1 = key) with
      | none => rfl
      | some p =>
        rw [hcase] at habs
        simp at habs
    have hidx : (m.buckets.getD (hashF key % m.buckets.length) []).findIdx?
        (fun p => p.1 = key) = none := by
      rw [List.findIdx?_eq_none_iff]
      rw [List.find?_eq_none] at hfind
      intro x hx
      have := hfind x hx
      simpa using this
    simp only [List.getD_eq_getElem?_getD] at hidx
    simp [remove, bucket_idx, hne, hidx]
  · have hb : m.buckets = [] := List.length_eq_zero.1 (by omega)
    simp [remove, bucket_idx, hb]

theorem remove_eq_found (m : HashMap K V) (key : K) (pos : Nat)
    (hpos : 0 < m.buckets.length)
    (hidx : (m.buckets.getD (hashF key % m.buckets.length) []).findIdx?
        (fun p => p.1 = key) = some pos) :
    remove hashF m key
      = ({ buckets := m.buckets.set (hashF key % m.buckets.length)
             (swapRemove (m.buckets.getD (hashF key % m.buckets.length) [])
               pos),
           items := m.items - 1 },
         ((m.buckets.getD (hashF key % m.buckets.length) [])[pos]?).map
           Prod.snd) := by
  have hne := isEmpty_false_of_pos hpos
  simp only [List.getD_eq_getElem?_getD] at hidx
  simp [remove, bucket_idx, hne, hidx]

theorem remove_present {m : HashMap K V} (h : WF hashF m) {key : K} {v : V}
    (hget : get hashF m key = some v) :
    (remove hashF m key).2 = some v ∧
    (remove hashF m key).1.items + 1 = m.items ∧
    get hashF (remove hashF m key).1 key = none ∧
    WF hashF (remove hashF m key).1 := by
  have hpos : 0 < m.buckets.length := by
    by_contra hc
    rw [get_empty hashF m key (by omega)] at hget
    cases hget
  have hi : hashF key % m.buckets.length < m.buckets.length :=
    Nat.mod_lt _ hpos
  set i := hashF key % m.buckets.length with hidef
  set b := m.buckets.getD i [] with hbdef
  rw [get_eq hashF m key hpos, ← hidef, ← hbdef] at hget
  obtain ⟨q, hq, hqv⟩ := Option.map_eq_some'.1 hget
  have hqk : q.1 = key := by simpa using List.find?_some hq
  have hidx : b.findIdx? (fun p => p.1 = key) ≠ none := by
    intro hcontra
    rw [List.findIdx?_eq_none_iff] at hcontra
    have := hcontra q (List.mem_of_find?_eq_some hq)
    simp [hqk] at this
  obtain ⟨pos, hposidx⟩ := Option.ne_none_iff_exists'.1 hidx
  obtain ⟨x, hx1, hx2, hx3⟩ :=
    findIdx?_some_spec (fun p => p.1 = key) b pos hposidx
  have hxq : x = q := by
    rw [hx3] at hq
    exact Option.some_inj.1 hq
  subst hxq
  have hposlt : pos < b.length := (List.getElem?_eq_some.1 hx1).1
  have hbmem : b ∈ m.buckets := hbdef ▸ getD_mem hi
  have hbnd : (b.map Prod.fst).Nodup := h.nodupKeys hashF hbmem
  have hremeq := remove_eq_found hashF m key pos hpos
    (by rw [← hidef, ← hbdef]; exact hposidx)
  rw [← hidef, ← hbdef] at hremeq
  have hitems_ge : 1 ≤ m.items := by
    have hsumge : b.length ≤ (m.buckets.map List.length).sum := by
      apply List.single_le_sum
      · intro x hx
        omega
      · exact List.mem_map.2 ⟨b, hbmem, rfl⟩
    have := h.count
    omega
  refine ⟨?_, ?_, ?_, ?_⟩
  · rw [hremeq]
    simp only [hx1]
    simp [hqv]
  · rw [hremeq]
    simp only
    omega
  · rw [hremeq]
    rw [get_eq hashF _ key (by simpa using hpos)]
    simp only [List.length_set, ← hidef]
    rw [List.getD_eq_getElem?_getD, List.getElem?_set_self hi]
    simp only [Option.getD_some]
    have hnone : (swapRemove b pos).find? (fun p => p.1 = key) = none := by
      rw [List.find?_eq_none]
      intro z hz
      have hz2 : z ∈ b.eraseIdx pos :=
        (swapRemove_perm b pos hposlt).mem_iff.1 hz
      have := eraseIdx_no_key hbnd hx1 hqk z hz2
      simpa using this
    rw [hnone]
    rfl
  · rw [hremeq]
    refine ⟨?_, ?_, ?_⟩
    · intro j hj p hp
      simp only [List.length_set] at hj ⊢
      rw [List.mem_range] at hj
      by_cases hji : j = i
      · subst hji
        rw [List.getD_eq_getElem?_getD, List.getElem?_set_self hi] at hp
        simp only [Option.getD_some] at hp
        have hp2 : p ∈ b.eraseIdx pos :=
          (swapRemove_perm b pos hposlt).mem_iff.1 hp
        have hp3 : p ∈ b := (List.eraseIdx_sublist b pos).subset hp2
        exact h.placement hashF hj (hbdef ▸ hp3)
      · rw [List.getD_eq_getElem?_getD, List.getElem?_set_ne
          (fun hcontra => hji hcontra.symm)] at hp
        rw [← List.getD_eq_getElem?_getD] at hp
        exact h.placement hashF hj hp
    · simp only [List.length_set]
      have hsum := sum_map_length_set m.buckets i (swapRemove b pos) hi
      rw [← hbdef] at hsum
      have hswlen := swapRemove_length hposlt
      have := h.count
      omega
    · intro bk hbk
      rcases List.mem_or_eq_of_mem_set hbk with hmem | heq
      · exact h.nodupKeys hashF hmem
      · subst heq
        have hperm : ((swapRemove b pos).map Prod.fst).Perm
            ((b.eraseIdx pos).map Prod.fst) :=
          (swapRemove_perm b pos hposlt).map Prod.fst
        have hnd2 : ((b.eraseIdx pos).map Prod.fst).Nodup :=
          ((List.eraseIdx_sublist b pos).map Prod.fst).nodup hbnd
        exact hperm.symm.nodup hnd2

theorem remove_WF {m : HashMap K V} (h : WF hashF m) (key : K) :
    WF hashF (remove hashF m key).1 := by
  cases hget : get hashF m key with
  | none =>
    rw [remove_absent hashF key hget]
    exact h
  | some v => exact (remove_present hashF h hget).2.2.2

end RemoveLemmas

section EntryLemmas

variable [DecidableEq K] (hashF : K → Nat)

theorem entry_isSome (m : HashMap K V) (key : K) :
    (entry hashF m key).isSome := by
  have hpos := maybeResize_pos hashF m
  have hne := isEmpty_false_of_pos hpos
  simp only [entry, bucket_idx, hne, Bool.false_eq_true, if_false]
  split <;> simp

theorem entry_eq_occupied {m : HashMap K V} (h : WF hashF m) {key : K}
    {v : V} (hget : get hashF m key = some v) :
    ∃ pos, entry hashF m key
      = some (maybeResize hashF m,
          EntryState.occupied
            (hashF key % (maybeResize hashF m).buckets.length) pos) := by
  have hpos := maybeResize_pos hashF m
  have hne := isEmpty_false_of_pos hpos
  have hget1 : get hashF (maybeResize hashF m) key = some v := by
    rw [get_maybeResize hashF h key]
    exact hget
  rw [get_eq hashF _ key hpos] at hget1
  obtain ⟨q, hq, hqv⟩ := Option.map_eq_some'.1 hget1
  have hidx : ((maybeResize hashF m).buckets.getD
      (hashF key % (maybeResize hashF m).buckets.length) []).findIdx?
      (fun p => p.1 = key) ≠ none := by
    intro hcontra
    rw [List.findIdx?_eq_none_iff] at hcontra
    have := hcontra q (List.mem_of_find?_eq_some hq)
    have hqk : q.1 = key := by simpa using List.find?_some hq
    simp [hqk] at this
  obtain ⟨pos, hposidx⟩ := Option.ne_none_iff_exists'.1 hidx
  refine ⟨pos, ?_⟩
  simp only [List.getD_eq_getElem?_getD] at hposidx
  simp [entry, bucket_idx, hne, hposidx]

theorem entry_eq_vacant {m : HashMap K V} (h : WF hashF m) {key : K}
    (hget : get hashF m key = none) :
    entry hashF m key
      = some (maybeResize hashF m,
          EntryState.vacant key
            (hashF key % (maybeResize hashF m).buckets.length)) := by
  have hpos := maybeResize_pos hashF m
  have hne := isEmpty_false_of_pos hpos
  have hget1 : get hashF (maybeResize hashF m) key = none := by
    rw [get_maybeResize hashF h key]
    exact hget
  rw [get_eq hashF _ key hpos] at hget1
  have hfind : ((maybeResize hashF m).buckets.getD
      (hashF key % (maybeResize hashF m).buckets.length) []).find?
      (fun p => p.1 = key) = none := by
    cases hcase : ((maybeResize hashF m).buckets.getD
        (hashF key % (maybeResize hashF m).buckets.length) []).find?
        (fun p => p.1 = key) with
    | none => rfl
    | some p =>
      rw [hcase] at hget1
      simp at hget1
  have hidx : ((maybeResize hashF m).buckets.getD
      (hashF key % (maybeResize hashF m).buckets.length) []).findIdx?
      (fun p => p.1 = key) = none := by
    rw [List.findIdx?_eq_none_iff]
    rw [List.find?_eq_none] at hfind
    intro x hx
    have := hfind x hx
    simpa using this
  simp only [List.getD_eq_getElem?_getD] at hidx
  simp [entry, bucket_idx, hne, hidx]

theorem vacantInsert_props {m1 : HashMap K V} (h1 : WF hashF m1)
    (hpos : 0 < m1.buckets.length) (key : K) (v : V)
    (habs : get hashF m1 key = none) :
    WF hashF (vacantInsert m1 key (hashF key % m1.buckets.length) v) ∧
    get hashF (vacantInsert m1 key (hashF key % m1.buckets.length) v) key
      = some v ∧
    (vacantInsert m1 key (hashF key % m1.buckets.length) v).items
      = m1.items + 1 := by
  have hi : hashF key % m1.buckets.length < m1.buckets.length :=
    Nat.mod_lt _ hpos
  set i := hashF key % m1.buckets.length with hidef
  set b := m1.buckets.getD i [] with hbdef
  rw [get_eq hashF m1 key hpos, ← hidef, ← hbdef] at habs
  have hfind : b.find? (fun p => p.1 = key) = none := by
    cases hcase : b.find? (fun p => p.1 = key) with
    | none => rfl
    | some p =>
      rw [hcase] at habs
      simp at habs
  have hkeynot : key ∉ b.map Prod.fst := by
    intro hmem
    obtain ⟨p, hp, hpk⟩ := List.mem_map.1 hmem
    rw [List.find?_eq_none] at hfind
    exact hfind p hp (by simp [hpk])
  refine ⟨⟨?_, ?_, ?_⟩, ?_, rfl⟩
  · intro j hj p hp
    simp only [vacantInsert, List.length_set] at hj hp ⊢
    rw [List.mem_range] at hj
    by_cases hji : j = i
    · subst hji
      rw [← hbdef, List.getD_eq_getElem?_getD, List.getElem?_set_self hi]
        at hp
      simp only [Option.getD_some] at hp
      rcases List.mem_append.1 hp with hmem | hmem
      · exact h1.placement hashF hj (hbdef ▸ hmem)
      · rw [List.mem_singleton] at hmem
        rw [hmem]
    · rw [← hbdef, List.getD_eq_getElem?_getD, List.getElem?_set_ne
        (fun hcontra => hji hcontra.symm)] at hp
      rw [← List.getD_eq_getElem?_getD] at hp
      exact h1.placement hashF hj hp
  · simp only [vacantInsert, List.length_set, ← hbdef]
    have hsum := sum_map_length_set m1.buckets i (b ++ [(key, v)]) hi
    rw [← hbdef] at hsum
    have := h1.count
    simp only [List.length_append, List.length_singleton] at hsum
    omega
  · intro bk hbk
    simp only [vacantInsert, ← hbdef] at hbk
    rcases List.mem_or_eq_of_mem_set hbk with hmem | heq
    · exact h1.nodupKeys hashF hmem
    · subst heq
      rw [List.map_append]
      simp only [List.map_cons, List.map_nil]
      rw [List.nodup_append]
      refine ⟨h1.nodupKeys hashF (hbdef ▸ getD_mem hi),
        List.nodup_singleton key, ?_⟩
      intro x hx hxk
      rw [List.mem_singleton] at hxk
      subst hxk
      exact hkeynot hx
  · simp only [vacantInsert, ← hbdef]
    rw [get_eq hashF _ key (by simpa using hpos)]
    simp only [List.length_set, ← hidef]
    rw [List.getD_eq_getElem?_getD, List.getElem?_set_self hi]
    simp only [Option.getD_some]
    rw [List.find?_append, hfind]
    simp

theorem or_insert_with_calls {m : HashMap K V} (h : WF hashF m) (key : K)
    (maker : Nat → V) (calls : Nat) :
    ∃ m1 e, entry hashF m key = some (m1, e) ∧
      ((get hashF m key).isSome →
        orInsertWithC m1 e maker calls = (m1,
          (orInsertWithC m1 e maker calls).2.1, calls)) ∧
      (get hashF m key = none →
        (orInsertWithC m1 e maker calls).2.2 = calls + 1 ∧
        (orInsertWithC m1 e maker calls).2.1 = some (maker calls) ∧
        get hashF (orInsertWithC m1 e maker calls).1 key
          = some (maker calls) ∧
        (orInsertWithC m1 e maker calls).1.items = m.items + 1) := by
  cases hget : get hashF m key with
  | some v =>
    obtain ⟨pos, hentry⟩ := entry_eq_occupied hashF h hget
    refine ⟨maybeResize hashF m, _, hentry, ?_, ?_⟩
    · intro _
      rfl
    · intro hcontra
      exact absurd hcontra (by simp [hget])
  | none =>
    have hentry := entry_eq_vacant hashF h hget
    refine ⟨maybeResize hashF m, _, hentry, ?_, ?_⟩
    · intro hcontra
      exact absurd hcontra (by simp [hget])
    · intro _
      have h1 := maybeResize_WF hashF h
      have hpos := maybeResize_pos hashF m
      have habs1 : get hashF (maybeResize hashF m) key = none := by
        rw [get_maybeResize hashF h key]
        exact hget
      obtain ⟨hwf, hstored, hcount⟩ :=
        vacantInsert_props hashF h1 hpos key (maker calls) habs1
      refine ⟨rfl, rfl, ?_, ?_⟩
      · exact hstored
      · simp only [orInsertWithC]
        rw [hcount, maybeResize_items]

theorem entry_or_WF {m : HashMap K V} (h : WF hashF m) (key : K) (v : V)
    (maker : Unit → V) :
    ∀ r, entry hashF m key = some r →
      WF hashF (orInsert r.1 r.2 v).1 ∧
      WF hashF (orInsertWith r.1 r.2 maker).1 := by
  intro r hr
  have h1 := maybeResize_WF hashF h
  have hpos := maybeResize_pos hashF m
  cases hget : get hashF m key with
  | some w =>
    obtain ⟨pos, hentry⟩ := entry_eq_occupied hashF h hget
    rw [hentry] at hr
    rw [Option.some_inj] at hr
    subst hr
    exact ⟨h1, h1⟩
  | none =>
    have hentry := entry_eq_vacant hashF h hget
    rw [hentry] at hr
    rw [Option.some_inj] at hr
    subst hr
    have habs1 : get hashF (maybeResize hashF m) key = none := by
      rw [get_maybeResize hashF h key]
      exact hget
    constructor
    · exact (vacantInsert_props hashF h1 hpos key v habs1).1
    · exact (vacantInsert_props hashF h1 hpos key (maker ()) habs1).1

theorem entry_orDefault_WF [Inhabited V] {m : HashMap K V}
    (h : WF hashF m) (key : K) :
    ∀ r, entry hashF m key = some r → WF hashF (orDefault r.1 r.2).1 := by
  intro r hr
  exact (entry_or_WF hashF h key default (fun _ => default) r hr).2

end EntryLemmas

section IterLemmas

theorem iterRun_yield {bs : List (List (K × V))} {i a : Nat}
    {bucket : List (K × V)} {p : K × V}
    (hb : bs[i]? = some bucket) (hp : bucket[a]? = some p) :
    iterRun bs i a = p :: iterRun bs i (a + 1) := by
  rw [iterRun]
  split
  · rename_i bucket2 hb2
    rw [hb] at hb2
    injection hb2 with he
    subst he
    split
    · rename_i p2 hp2
      rw [hp] at hp2
      injection hp2 with he2
      subst he2
      rfl
    · rename_i hp2
      rw [hp] at hp2
      cases hp2
  · rename_i hb2
    rw [hb] at hb2
    cases hb2

theorem iterRun_skip {bs : List (List (K × V))} {i a : Nat}
    {bucket : List (K × V)}
    (hb : bs[i]? = some bucket) (hp : bucket[a]? = none) :
    iterRun bs i a = iterRun bs (i + 1) 0 := by
  rw [iterRun]
  split
  · rename_i bucket2 hb2
    rw [hb] at hb2
    injection hb2 with he
    subst he
    split
    · rename_i p2 hp2
      rw [hp] at hp2
      cases hp2
    · rfl
  · rename_i hb2
    rw [hb] at hb2
    cases hb2

theorem iterRun_done {bs : List (List (K × V))} {i a : Nat}
    (hb : bs[i]? = none) :
    iterRun bs i a = [] := by
  rw [iterRun]
  split
  · rename_i bucket2 hb2
    rw [hb] at hb2
    cases hb2
  · rfl

theorem iterNext_yield {bs : List (List (K × V))} {i a : Nat}
    {bucket : List (K × V)} {p : K × V}
    (hb : bs[i]? = some bucket) (hp : bucket[a]? = some p) :
    iterNext bs i a = some (p, i, a + 1) := by
  rw [iterNext]
  split
  · rename_i bucket2 hb2
    rw [hb] at hb2
    injection hb2 with he
    subst he
    split
    · rename_i p2 hp2
      rw [hp] at hp2
      injection hp2 with he2
      subst he2
      rfl
    · rename_i hp2
      rw [hp] at hp2
      cases hp2
  · rename_i hb2
    rw [hb] at hb2
    cases hb2

theorem iterNext_skip {bs : List (List (K × V))} {i a : Nat}
    {bucket : List (K × V)}
    (hb : bs[i]? = some bucket) (hp : bucket[a]? = none) :
    iterNext bs i a = iterNext bs (i + 1) 0 := by
  rw [iterNext]
  split
  · rename_i bucket2 hb2
    rw [hb] at hb2
    injection hb2 with he
    subst he
    split
    · rename_i p2 hp2
      rw [hp] at hp2
      cases hp2
    · rfl
  · rename_i hb2
    rw [hb] at hb2
    cases hb2

theorem iterNext_done {bs : List (List (K × V))} {i a : Nat}
    (hb : bs[i]? = none) :
    iterNext bs i a = none := by
  rw [iterNext]
  split
  · rename_i bucket2 hb2
    rw [hb] at hb2
    cases hb2
  · rfl

theorem intoRun_pop {bs : List (List (K × V))} {i : Nat}
    {bucket : List (K × V)} {p : K × V}
    (hb : bs[i]? = some bucket) (hp : bucket.getLast? = some p) :
    intoRun bs i = p :: intoRun (bs.set i bucket.dropLast) i := by
  rw [intoRun]
  split
  · rename_i bucket2 hb2
    rw [hb] at hb2
    injection hb2 with he
    subst he
    split
    · rename_i p2 hp2
      rw [hp] at hp2
      injection hp2 with he2
      subst he2
      rfl
    · rename_i hp2
      rw [hp] at hp2
      cases hp2
  · rename_i hb2
    rw [hb] at hb2
    cases hb2

theorem intoRun_skip {bs : List (List (K × V))} {i : Nat}
    {bucket : List (K × V)}
    (hb : bs[i]? = some bucket) (hp : bucket.getLast? = none) :
    intoRun bs i = intoRun bs (i + 1) := by
  rw [intoRun]
  split
  · rename_i bucket2 hb2
    rw [hb] at hb2
    injection hb2 with he
    subst he
    split
    · rename_i p2 hp2
      rw [hp] at hp2
      cases hp2
    · rfl
  · rename_i hb2
    rw [hb] at hb2
    cases hb2

theorem intoRun_done {bs : List (List (K × V))} {i : Nat}
    (hb : bs[i]? = none) :
    intoRun bs i = [] := by
  rw [intoRun]
  split
  · rename_i bucket2 hb2
    rw [hb] at hb2
    cases hb2
  · rfl

theorem intoNext_pop {bs : List (List (K × V))} {i : Nat}
    {bucket : List (K × V)} {p : K × V}
    (hb : bs[i]? = some bucket) (hp : bucket.getLast? = some p) :
    intoNext bs i = some (p, bs.set i bucket.dropLast, i) := by
  rw [intoNext]
  split
  · rename_i bucket2 hb2
    rw [hb] at hb2
    injection hb2 with he
    subst he
    split
    · rename_i p2 hp2
      rw [hp] at hp2
      injection hp2 with he2
      subst he2
      rfl
    · rename_i hp2
      rw [hp] at hp2
      cases hp2
  · rename_i hb2
    rw [hb] at hb2
    cases hb2

theorem intoNext_skip {bs : List (List (K × V))} {i : Nat}
    {bucket : List (K × V)}
    (hb : bs[i]? = some bucket) (hp : bucket.getLast? = none) :
    intoNext bs i = intoNext bs (i + 1) := by
  rw [intoNext]
  split
  · rename_i bucket2 hb2
    rw [hb] at hb2
    injection hb2 with he
    subst he
    split
    · rename_i p2 hp2
      rw [hp] at hp2
      cases hp2
    · rfl
  · rename_i hb2
    rw [hb] at hb2
    cases hb2

theorem intoNext_done {bs : List (List (K × V))} {i : Nat}
    (hb : bs[i]? = none) :
    intoNext bs i = none := by
  rw [intoNext]
  split
  · rename_i bucket2 hb2
    rw [hb] at hb2
    cases hb2
  · rfl

theorem iterRun_closed (bs : List (List (K × V))) (i a : Nat) :
    iterRun bs i a
      = (bs.getD i []).drop a ++ (bs.drop (i + 1)).flatten := by
  induction i, a using iterRun.induct bs with
  | case1 i a bucket hb p hp ih =>
    rw [iterRun_yield hb hp, ih]
    have hbd : bs.getD i [] = bucket := by simp [hb]
    rw [hbd]
    have ha : a < bucket.length := (List.getElem?_eq_some.1 hp).1
    rw [List.drop_eq_getElem_cons ha]
    have hpa : bucket[a] = p := (List.getElem?_eq_some.1 hp).2
    rw [hpa]
    rfl
  | case2 i a bucket hb hp ih =>
    rw [iterRun_skip hb hp, ih]
    have hbd : bs.getD i [] = bucket := by simp [hb]
    have ha : bucket.length ≤ a := by
      by_contra hc
      rw [List.getElem?_eq_getElem (by omega)] at hp
      cases hp
    rw [hbd, List.drop_eq_nil_of_le ha, List.nil_append]
    by_cases hi1 : i + 1 < bs.length
    · have hg : bs.getD (i + 1) [] = bs[i + 1] := by
        simp [List.getD_eq_getElem?_getD, List.getElem?_eq_getElem hi1]
      rw [hg]
      conv_rhs => rw [List.drop_eq_getElem_cons hi1, List.flatten_cons]
      simp only [List.drop_zero]
    · have h1 : List.drop (i + 1) bs = [] :=
        List.drop_eq_nil_of_le (by omega)
      have h2 : List.drop (i + 1 + 1) bs = [] :=
        List.drop_eq_nil_of_le (by omega)
      have hge : bs[i + 1]? = none := List.getElem?_eq_none_iff.2 (by omega)
      have hg : bs.getD (i + 1) [] = [] := by
        simp [List.getD_eq_getElem?_getD, hge]
      rw [h1, h2, hg]
      simp
  | case3 i a hb =>
    rw [iterRun_done hb]
    have hi : bs.length ≤ i := List.getElem?_eq_none_iff.1 hb
    have h1 : List.drop (i + 1) bs = [] :=
      List.drop_eq_nil_of_le (by omega)
    have hg : bs.getD i [] = [] := by
      simp [List.getD_eq_getElem?_getD, hb]
    rw [h1, hg]
    simp

theorem iterRun_flatten (bs : List (List (K × V))) :
    iterRun bs 0 0 = bs.flatten := by
  rw [iterRun_closed]
  cases bs with
  | nil => simp
  | cons b rest => simp

theorem iterRun_next_step (bs : List (List (K × V))) (i a : Nat) :
    iterRun bs i a
      = (match iterNext bs i a with
         | none => []
         | some (p, s) => p :: iterRun bs s.1 s.2) := by
  induction i, a using iterNext.induct bs with
  | case1 i a bucket hb p hp =>
    rw [iterRun_yield hb hp, iterNext_yield hb hp]
  | case2 i a bucket hb hp ih =>
    rw [iterRun_skip hb hp, iterNext_skip hb hp]
    exact ih
  | case3 i a hb =>
    rw [iterRun_done hb, iterNext_done hb]

theorem iterNext_exhausted (bs : List (List (K × V))) (a : Nat) :
    iterNext bs bs.length a = none :=
  iterNext_done (by simp)

theorem intoRun_closed :
    ∀ (bs : List (List (K × V))) (i : Nat),
      intoRun bs i = ((bs.drop i).map List.reverse).flatten := by
  intro bs i
  induction bs, i using intoRun.induct with
  | case1 bs i bucket hb p hp ih =>
    rw [intoRun_pop hb hp, ih]
    have hi : i < bs.length := (List.getElem?_eq_some.1 hb).1
    have hbi : bs[i] = bucket := (List.getElem?_eq_some.1 hb).2
    have hset : (bs.set i bucket.dropLast).drop i
        = bucket.dropLast :: bs.drop (i + 1) := by
      rw [List.drop_set]
      rw [if_neg (by omega)]
      rw [List.drop_eq_getElem_cons hi, hbi]
      simp
    rw [hset]
    rw [List.drop_eq_getElem_cons hi, hbi]
    simp only [List.map_cons, List.flatten_cons]
    have hrev : bucket.reverse = p :: bucket.dropLast.reverse := by
      have hbk : bucket.dropLast ++ [p] = bucket :=
        List.dropLast_append_getLast? p hp
      rw [← hbk, List.reverse_append]
      simp
    rw [hrev]
    simp
  | case2 bs i bucket hb hp ih =>
    rw [intoRun_skip hb hp, ih]
    have hi : i < bs.length := (List.getElem?_eq_some.1 hb).1
    have hbi : bs[i] = bucket := (List.getElem?_eq_some.1 hb).2
    rw [List.drop_eq_getElem_cons hi, hbi]
    have hbnil : bucket = [] := List.getLast?_eq_none_iff.1 hp
    rw [hbnil]
    simp
  | case3 bs i hb =>
    rw [intoRun_done hb]
    have hi : bs.length ≤ i := List.getElem?_eq_none_iff.1 hb
    rw [List.drop_eq_nil_of_le hi]
    simp

theorem intoRun_perm (bs : List (List (K × V))) :
    (intoRun bs 0).Perm bs.flatten := by
  rw [intoRun_closed]
  simp only [List.drop_zero]
  induction bs with
  | nil => simp
  | cons b rest ih =>
    simp only [List.map_cons, List.flatten_cons]
    exact (List.reverse_perm b).append ih

theorem intoRun_next_step (bs : List (List (K × V))) (i : Nat) :
    intoRun bs i
      = (match intoNext bs i with
         | none => []
         | some (p, s) => p :: intoRun s.1 s.2) := by
  induction i using intoNext.induct bs with
  | case1 i bucket hb p hp =>
    rw [intoRun_pop hb hp, intoNext_pop hb hp]
  | case2 i bucket hb hp ih =>
    rw [intoRun_skip hb hp, intoNext_skip hb hp]
    exact ih
  | case3 i hb =>
    rw [intoRun_done hb, intoNext_done hb]

end IterLemmas

section FromListLemmas

variable [DecidableEq K] (hashF : K → Nat)

theorem foldl_insert_WF :
    ∀ (l : List (K × V)) (m : HashMap K V), WF hashF m →
      WF hashF (l.foldl (fun mm p => (insert hashF mm p.1 p.2).1) m)
  | [], _, h => h
  | q :: l, m, h => by
    rw [List.foldl_cons]
    exact foldl_insert_WF l _ (insert_WF hashF h q.1 q.2)

theorem get_foldl_insert_absent (key : K) :
    ∀ (l : List (K × V)) (m : HashMap K V), WF hashF m →
      key ∉ l.map Prod.fst →
      get hashF (l.foldl (fun mm p => (insert hashF mm p.1 p.2).1) m) key
        = get hashF m key
  | [], _, _, _ => rfl
  | q :: l, m, h, habs => by
    rw [List.foldl_cons]
    have hkq : key ≠ q.1 := by
      intro hcontra
      exact habs (by
        rw [List.map_cons]
        exact hcontra ▸ List.mem_cons_self _ _)
    rw [get_foldl_insert_absent key l _ (insert_WF hashF h q.1 q.2)
      (fun hc => habs (List.mem_cons_of_mem _ hc))]
    exact get_insert_ne hashF h q.2 hkq

theorem get_foldl_insert_distinct :
    ∀ (l : List (K × V)) (m : HashMap K V), WF hashF m →
      (l.map Prod.fst).Nodup → ∀ p ∈ l,
      get hashF (l.foldl (fun mm p => (insert hashF mm p.1 p.2).1) m) p.1
        = some p.2
  | [], _, _, _, p, hp => by simp at hp
  | q :: l, m, h, hnd, p, hp => by
    rw [List.foldl_cons]
    rw [List.map_cons, List.nodup_cons] at hnd
    rcases List.mem_cons.1 hp with heq | hmem
    · subst heq
      rw [get_foldl_insert_absent hashF p.1 l _
        (insert_WF hashF h p.1 p.2) hnd.1]
      exact get_insert_self hashF m p.1 p.2
    · exact get_foldl_insert_distinct l _
        (insert_WF hashF h q.1 q.2) hnd.2 p hmem

theorem fromList_WF (l : List (K × V)) : WF hashF (fromList hashF l) :=
  foldl_insert_WF hashF l new (WF_new hashF)

theorem get_fromList_distinct (l : List (K × V))
    (hnd : (l.map Prod.fst).Nodup) :
    ∀ p ∈ l, get hashF (fromList hashF l) p.1 = some p.2 :=
  get_foldl_insert_distinct hashF l new (WF_new hashF) hnd

theorem entry_fst (m : HashMap K V) (key : K) :
    ∀ r, entry hashF m key = some r → r.1 = maybeResize hashF m := by
  intro r hr
  have hpos := maybeResize_pos hashF m
  have hne := isEmpty_false_of_pos hpos
  simp only [entry, bucket_idx, hne, Bool.false_eq_true, if_false] at hr
  split at hr <;> (rw [Option.some_inj] at hr; rw [← hr])

end FromListLemmas

section Claims

variable [DecidableEq K]

/-- Claim C1: for every well-formed table and key `k`, `insert(k, v)`
followed immediately by `get(k)` returns `v`; `insert(k, v1)` then
`insert(k, v2)` returns `v1` as the previous value from the second
insert, and a subsequent `get(k)` returns `v2`. -/
theorem claim_C1 (hashF : K → Nat) (m : HashMap K V) (k : K)
    (v v1 v2 : V) (h : WF hashF m) :
    get hashF (insert hashF m k v).1 k = some v ∧
    (insert hashF (insert hashF m k v1).1 k v2).2 = some v1 ∧
    get hashF (insert hashF (insert hashF m k v1).1 k v2).1 k = some v2 := by
  refine ⟨get_insert_self hashF m k v, ?_, get_insert_self hashF _ k v2⟩
  have h1 := insert_WF hashF h k v1
  rw [insert_snd hashF h1 k v2]
  exact get_insert_self hashF m k v1

theorem claim_C1_witness :
    get natHash (insert natHash sampleMap 5 50).1 5 = some 50 ∧
    (insert natHash (insert natHash sampleMap 5 51).1 5 52).2 = some 51 ∧
    get natHash (insert natHash (insert natHash sampleMap 5 51).1 5 52).1 5
      = some 52 :=
  claim_C1 natHash sampleMap 5 50 51 52 (by decide)

/-- Claim C2: `new`, `resize`, `insert`, `remove`, and `entry` followed
by `or_insert`, `or_insert_with` or `or_default` all preserve the
structural invariants `WF`: correct bucket placement of every pair,
`items` equal to the total number of pairs, and no duplicate keys within
a bucket. -/
theorem claim_C2 [Inhabited V] (hashF : K → Nat) :
    WF hashF (new : HashMap K V) ∧
    (∀ m : HashMap K V, WF hashF m → WF hashF (resize hashF m)) ∧
    (∀ (m : HashMap K V) (k : K) (v : V), WF hashF m →
      WF hashF (insert hashF m k v).1) ∧
    (∀ (m : HashMap K V) (k : K), WF hashF m →
      WF hashF (remove hashF m k).1) ∧
    (∀ (m : HashMap K V) (k : K), WF hashF m →
      ∀ r, entry hashF m k = some r →
        WF hashF r.1 ∧
        (∀ v : V, WF hashF (orInsert r.1 r.2 v).1) ∧
        (∀ maker : Unit → V, WF hashF (orInsertWith r.1 r.2 maker).1) ∧
        WF hashF (orDefault r.1 r.2).1) := by
  refine ⟨WF_new hashF, fun m h => resize_WF hashF h,
    fun m k v h => insert_WF hashF h k v,
    fun m k h => remove_WF hashF h k,
    fun m k h r hr => ⟨?_, ?_, ?_, ?_⟩⟩
  · rw [entry_fst hashF m k r hr]
    exact maybeResize_WF hashF h
  · intro v
    exact (entry_or_WF hashF h k v (fun _ => v) r hr).1
  · intro maker
    exact (entry_or_WF hashF h k default maker r hr).2
  · exact entry_orDefault_WF hashF h k r hr

theorem claim_C2_witness :
    WF natHash (insert natHash sampleMap 7 70).1 ∧
    WF natHash (remove natHash sampleMap 2).1 :=
  ⟨(claim_C2 (V := Nat) natHash).2.2.1 sampleMap 7 70 (by decide),
   (claim_C2 (V := Nat) natHash).2.2.2.1 sampleMap 2 (by decide)⟩

/-- Claim C3: growth runs before an insertion, via `insert` or `entry`,
exactly when the bucket array is empty or `items > 3 * len / 4` under
integer floor division, and the new capacity is `1` from zero buckets
and exactly double otherwise; without the trigger the capacity is
unchanged. -/
theorem claim_C3 (hashF : K → Nat) (m : HashMap K V) (k : K) (v : V) :
    (insert hashF m k v).1.buckets.length
      = (if m.buckets.isEmpty ∨ m.items > 3 * m.buckets.length / 4 then
          (if m.buckets.length = 0 then 1 else 2 * m.buckets.length)
         else m.buckets.length) ∧
    (entry hashF m k).map (fun r => r.1.buckets.length)
      = some (if m.buckets.isEmpty ∨ m.items > 3 * m.buckets.length / 4
          then (if m.buckets.length = 0 then 1 else 2 * m.buckets.length)
          else m.buckets.length) := by
  constructor
  · rw [insert_buckets_length, maybeResize_length]
  · cases hentry : entry hashF m k with
    | none =>
      have := entry_isSome hashF m k
      rw [hentry] at this
      cases this
    | some r =>
      rw [Option.map_some', entry_fst hashF m k r hentry,
        maybeResize_length]

/-- Claim C4: `entry(k).or_insert_with(producer)` never invokes the
producer when `k` is present, and invokes it exactly once when `k` is
absent, storing the produced value under `k` and increasing `items` by
one.  Producer calls are counted by the instrumented `orInsertWithC`. -/
theorem claim_C4 (hashF : K → Nat) (m : HashMap K V) (k : K)
    (maker : Nat → V) (calls : Nat) (h : WF hashF m) :
    ∃ m1 e, entry hashF m k = some (m1, e) ∧
      ((get hashF m k).isSome →
        orInsertWithC m1 e maker calls
          = (m1, (orInsertWithC m1 e maker calls).2.1, calls)) ∧
      (get hashF m k = none →
        (orInsertWithC m1 e maker calls).2.2 = calls + 1 ∧
        (orInsertWithC m1 e maker calls).2.1 = some (maker calls) ∧
        get hashF (orInsertWithC m1 e maker calls).1 k
          = some (maker calls) ∧
        (orInsertWithC m1 e maker calls).1.items = m.items + 1) :=
  or_insert_with_calls hashF h k maker calls

theorem claim_C4_witness :
    ∃ m1 e, entry natHash sampleMap 2 = some (m1, e) ∧
      ((get natHash sampleMap 2).isSome →
        orInsertWithC m1 e (fun n => n + 100) 0
          = (m1, (orInsertWithC m1 e (fun n => n + 100) 0).2.1, 0)) ∧
      (get natHash sampleMap 2 = none →
        (orInsertWithC m1 e (fun n => n + 100) 0).2.2 = 0 + 1 ∧
        (orInsertWithC m1 e (fun n => n + 100) 0).2.1 = some 100 ∧
        get natHash (orInsertWithC m1 e (fun n => n + 100) 0).1 2
          = some 100 ∧
        (orInsertWithC m1 e (fun n => n + 100) 0).1.items
          = sampleMap.items + 1) :=
  claim_C4 natHash sampleMap 2 (fun n => n + 100) 0 (by decide)

/-- Claim C5: on a well-formed table, `remove(k)` for an absent key
(also with zero buckets) returns nothing and changes nothing; for a
present key it returns that key's value, decreases `items` by exactly
one, and a subsequent `get(k)` returns nothing. -/
theorem claim_C5 (hashF : K → Nat) (m : HashMap K V) (k : K)
    (h : WF hashF m) :
    (get hashF m k = none → remove hashF m k = (m, none)) ∧
    (∀ v, get hashF m k = some v →
      (remove hashF m k).2 = some v ∧
      (remove hashF m k).1.items + 1 = m.items ∧
      get hashF (remove hashF m k).1 k = none) := by
  constructor
  · intro habs
    exact remove_absent hashF k habs
  · intro v hget
    obtain ⟨h1, h2, h3, _⟩ := remove_present hashF h hget
    exact ⟨h1, h2, h3⟩

theorem claim_C5_witness :
    remove natHash sampleMap 9 = (sampleMap, none) ∧
    ((remove natHash sampleMap 2).2 = some 20 ∧
     (remove natHash sampleMap 2).1.items + 1 = sampleMap.items ∧
     get natHash (remove natHash sampleMap 2).1 2 = none) :=
  ⟨(claim_C5 natHash sampleMap 9 (by decide)).1 (by decide),
   (claim_C5 natHash sampleMap 2 (by decide)).2 20 (by decide)⟩

/-- Claim C6: growth is transparent to lookup: after inserting any
sequence of pairs with distinct keys into a fresh table, every inserted
key is found by `get` with its inserted value, however many rehashes
occurred along the way. -/
theorem claim_C6 (hashF : K → Nat) (l : List (K × V))
    (hnd : (l.map Prod.fst).Nodup) :
    ∀ p ∈ l, get hashF (fromList hashF l) p.1 = some p.2 :=
  get_fromList_distinct hashF l hnd

theorem claim_C6_witness :
    get natHash
      (fromList natHash ((List.range 12).map (fun n => (n, n + 100)))) 7
      = some 107 :=
  claim_C6 natHash ((List.range 12).map (fun n => (n, n + 100)))
    (by decide) (7, 107) (by decide)

end Claims

section IterClaims

/-- Claim C7: the borrowing iterator started at bucket `0`, slot `0`
yields exactly the stored pairs, in ascending bucket order and ascending
slot order within each bucket (that is, the concatenation of the
buckets), signals exhaustion past the last bucket, and on a well-formed
table the number of yielded pairs equals `items`. -/
theorem claim_C7 (m : HashMap K V) :
    iterRun m.buckets 0 0 = m.buckets.flatten ∧
    iterNext m.buckets m.buckets.length 0 = none ∧
    (∀ hashF : K → Nat, WF hashF m →
      (iterRun m.buckets 0 0).length = m.items) := by
  refine ⟨iterRun_flatten m.buckets, iterNext_exhausted m.buckets 0, ?_⟩
  intro hashF h
  rw [iterRun_flatten, List.length_flatten]
  exact (WF.count hashF h).symm

theorem claim_C7_witness :
    (iterRun sampleMap.buckets 0 0).length = sampleMap.items :=
  (claim_C7 sampleMap).2.2 natHash (by decide)

/-- Claim C8: the consuming iterator started at bucket `0` drains the
buckets in ascending order, repeatedly popping the last element of the
current bucket, so it yields each stored pair exactly once (the yielded
sequence is bucketwise reversed, a permutation of the stored pairs),
signals exhaustion past the last bucket, and on a well-formed table the
number of yielded pairs equals `items`. -/
theorem claim_C8 (m : HashMap K V) :
    intoRun m.buckets 0 = ((m.buckets.map List.reverse)).flatten ∧
    (intoRun m.buckets 0).Perm m.buckets.flatten ∧
    intoNext m.buckets m.buckets.length = none ∧
    (∀ hashF : K → Nat, WF hashF m →
      (intoRun m.buckets 0).length = m.items) := by
  refine ⟨intoRun_closed m.buckets 0, intoRun_perm m.buckets,
    intoNext_done (by simp), ?_⟩
  intro hashF h
  rw [(intoRun_perm m.buckets).length_eq, List.length_flatten]
  exact (WF.count hashF h).symm

theorem claim_C8_witness :
    (intoRun sampleMap.buckets 0).length = sampleMap.items :=
  (claim_C8 sampleMap).2.2.2 natHash (by decide)

end IterClaims

section FinalClaims

variable [DecidableEq K]

/-- Claim C9: `from_pairs` builds a fresh table and inserts the pairs in
input order through the standard `insert`, so later duplicates
overwrite earlier ones: `from_pairs([(k, v1), (k, v2)])` has one item
and `get(k)` returns `v2`. -/
theorem claim_C9 (hashF : K → Nat) (k : K) (v1 v2 : V) :
    (fromList hashF [(k, v1), (k, v2)]).items = 1 ∧
    get hashF (fromList hashF [(k, v1), (k, v2)]) k = some v2 := by
  have hfrom : fromList hashF [(k, v1), (k, v2)]
      = (insert hashF (insert hashF new k v1).1 k v2).1 := by
    simp [fromList]
  have h0 := WF_new (K := K) (V := V) hashF
  have h1 := insert_WF hashF h0 k v1
  have hget0 : get hashF (new : HashMap K V) k = none :=
    get_empty hashF new k rfl
  have hitems1 : (insert hashF new k v1).1.items = 1 := by
    rw [insert_items hashF h0 k v1, hget0]
    simp [new]
  have hget1 : get hashF (insert hashF new k v1).1 k = some v1 :=
    get_insert_self hashF new k v1
  constructor
  · rw [hfrom, insert_items hashF h1 k v2, hget1]
    simp [hitems1]
  · rw [hfrom]
    exact get_insert_self hashF _ k v2

/-- Claim C10: after the growth policy shared by `insert` and `entry`
has run, the bucket array is non-empty, so the bucket-index computation
always succeeds: `entry`'s unwrap cannot panic, and `insert`'s
empty-bucket early return is unreachable — `items` grows by one exactly
when no previous value is returned. -/
theorem claim_C10 (hashF : K → Nat) (m : HashMap K V) (k : K) (v : V) :
    0 < (maybeResize hashF m).buckets.length ∧
    (bucket_idx hashF (maybeResize hashF m) k).isSome ∧
    (entry hashF m k).isSome ∧
    (insert hashF m k v).1.items
      = (if (insert hashF m k v).2.isSome then m.items else m.items + 1) := by
  refine ⟨maybeResize_pos hashF m, ?_, entry_isSome hashF m k, ?_⟩
  · have hne := isEmpty_false_of_pos (maybeResize_pos hashF m)
    simp [bucket_idx, hne]
  · rw [insert_eq]
    simp [maybeResize_items]

end FinalClaims

end RustHashMap
